import Mathlib

/-!
A shallow embedding of the lock-free work-distribution primitives in
`src/lockfree/lib.rs` of the mandelbrot repository: the countdown
allocator `Counter` (lines 31-58) and the disjoint chunk partitioner
`AtomicChunksMut` (lines 89-124, embedded here as `Chunks`).

Both primitives guard a single `AtomicUsize` cursor that is only ever
advanced by a successful `compare_exchange` (all orderings are `SeqCst`).
In any interleaving, loads and failed CAS attempts leave the shared state
unchanged, and the value a caller returns is computed from the value its
successful CAS compared against, which at that instant equals the shared
cursor.  A call therefore takes effect as one atomic step.  The sequential
step functions below (`Counter.next`, `Chunks.next`) embed that step; the
`CounterExec` / `ChunksExec` relations further down model arbitrary
interleavings of successful CAS events, for the concurrency claims.

Rust panics (the `assert!` in `AtomicChunksMut::next`, line 108, and the
division `current / self.step`, line 114, which panics when `step = 0`)
are embedded as `Except.error`.  `usize` values are embedded as `Nat`:
no arithmetic here can overflow, since cursors only move between `0` and
the initial count / the slice length, and `current + step` is immediately
clamped by `min` as in the source.
-/

/-- A Rust panic that `AtomicChunksMut::next` can raise: the `assert!` on
line 108, or the division by zero in `current / self.step` on line 114. -/
inductive PanicKind where
  | assertFailed
  | divByZero
deriving DecidableEq, Repr

/-- State of `Counter` (src/lockfree/lib.rs, lines 31-33): the single
atomic field `count`. -/
structure Counter where
  count : Nat
deriving DecidableEq, Repr

/-- `Counter::new` (lines 36-38). -/
def Counter.new (count : Nat) : Counter := ⟨count⟩

/-- `Counter::next` (lines 40-52) as one atomic step: load the count; if it
is `0`, return `None`; otherwise the compare-and-exchange from `current` to
`current - 1` succeeds and the call returns `Some (current - 1)`.  (A failed
CAS only re-runs the loop from a fresh load, so it contributes no step.) -/
def Counter.next (s : Counter) : Option Nat × Counter :=
  if s.count = 0 then (none, s) else (some (s.count - 1), ⟨s.count - 1⟩)

/-- Drive `Counter.next` repeatedly, collecting the issued values until the
exhausted signal, with explicit fuel; returns the trace and the final
state. -/
def Counter.drainAux : Nat → Counter → List Nat × Counter
  | 0, s => ([], s)
  | fuel + 1, s =>
    match s.next with
    | (none, s') => ([], s')
    | (some v, s') =>
      let r := Counter.drainAux fuel s'
      (v :: r.1, r.2)

/-- Drive a counter to exhaustion (each successful call decreases the count,
so `count + 1` calls always reach the exhausted signal). -/
def Counter.drain (s : Counter) : List Nat × Counter :=
  Counter.drainAux (s.count + 1) s

/-- State of `AtomicChunksMut` (lines 89-93): the borrowed slice, the chunk
size `step`, and the atomic cursor (the field is called `next` in the
source; it is renamed `cursor` here because `next` names the operation). -/
structure Chunks (α : Type) where
  slice : List α
  step : Nat
  cursor : Nat
deriving DecidableEq, Repr

/-- `AtomicChunksMut::new` (lines 96-102): stores the slice and step and
sets the cursor to `0`.  Note that the constructor performs no validation
of `step`. -/
def Chunks.new (slice : List α) (step : Nat) : Chunks α := ⟨slice, step, 0⟩

/-- `AtomicChunksMut::next` (lines 105-117) as one atomic step: load the
cursor; `assert!(current <= slice.len())`; if `current == slice.len()`,
return `None`; otherwise `end = min(current + step, slice.len())`, the CAS
from `current` to `end` succeeds, and the call returns the chunk index
`current / step` with the view `&slice[current..end]`, i.e. the sublist
`(slice.drop current).take (end - current)`.

In the source the CAS happens before the division; when `step = 0` the CAS
stores `end = min(current, len) = current`, a no-op, and then
`current / step` panics, so erroring here without a state change is
faithful. -/
def Chunks.next (c : Chunks α) : Except PanicKind (Option (Nat × List α) × Chunks α) :=
  if c.cursor ≤ c.slice.length then
    if c.cursor = c.slice.length then .ok (none, c)
    else if c.step = 0 then .error .divByZero
    else
      .ok (some (c.cursor / c.step,
            (c.slice.drop c.cursor).take (min (c.cursor + c.step) c.slice.length - c.cursor)),
          ⟨c.slice, c.step, min (c.cursor + c.step) c.slice.length⟩)
  else .error .assertFailed

/-- Drive `Chunks.next` repeatedly, collecting the issued chunk handles
until the exhausted signal (or a panic), with explicit fuel; returns the
trace and the final state. -/
def Chunks.drainAux : Nat → Chunks α → List (Nat × List α) × Chunks α
  | 0, c => ([], c)
  | fuel + 1, c =>
    match c.next with
    | .ok (some p, c') =>
      let r := Chunks.drainAux fuel c'
      (p :: r.1, r.2)
    | _ => ([], c)

/-- Drive a partitioner to exhaustion (each successful call advances the
cursor by at least one, so `slice.length + 1` calls always reach the
exhausted signal). -/
def Chunks.drain (c : Chunks α) : List (Nat × List α) × Chunks α :=
  Chunks.drainAux (c.slice.length + 1) c

/-- The `test_ait` unit test (lines 128-135): a buffer `0..=10` with stride
3 yields chunk indices `[0, 1, 2, 3]`. -/
example :
    ((Chunks.new [0, 1, 2, 3, 4, 5, 6, 7, 8, 9, 10] 3).drain).1.map Prod.fst
      = [0, 1, 2, 3] := by decide

/-- The `test_ait` unit test, second assertion: the first element of each
chunk is `0, 3, 6, 9`. -/
example :
    ((Chunks.new [0, 1, 2, 3, 4, 5, 6, 7, 8, 9, 10] 3).drain).1.map Prod.snd
      = [[0, 1, 2], [3, 4, 5], [6, 7, 8], [9, 10]] := by decide

example : (Counter.new 4).drain = ([3, 2, 1, 0], ⟨0⟩) := by decide

/-- Closed form of a counter drain: from count `c` (with enough fuel) the
issued values are `c - 1, c - 2, ..., 0` and the final count is `0`. -/
theorem Counter.drainAux_eq (fuel c : Nat) (h : c < fuel) :
    Counter.drainAux fuel ⟨c⟩ = ((List.range c).reverse, ⟨0⟩) := by
  induction fuel generalizing c with
  | zero => omega
  | succ fuel ih =>
    by_cases hc : c = 0
    · subst hc; simp [Counter.drainAux, Counter.next]
    · have h1 : c - 1 < fuel := by omega
      have h2 : c = (c - 1) + 1 := by omega
      rw [Counter.drainAux, show Counter.next ⟨c⟩ = (some (c - 1), ⟨c - 1⟩) by
        simp [Counter.next, hc]]
      simp only [ih (c - 1) h1]
      rw [h2, List.range_succ]
      simp

theorem Counter.drain_new (N : Nat) :
    Counter.drain (Counter.new N) = ((List.range N).reverse, ⟨0⟩) :=
  Counter.drainAux_eq (N + 1) N (by omega)

/-- C10: a single caller repeatedly invoking `Counter::next` on
`Counter::new(N)` receives exactly the sequence `N-1, N-2, ..., 1, 0`
(that is, `(List.range N).reverse`), strictly descending, after which the
state has count `0` and the next call returns the exhausted signal `none`;
in particular `Counter::new(0)` signals exhaustion on the very first
call. -/
theorem counter_sequential_drain (N : Nat) :
    (Counter.drain (Counter.new N)).1 = (List.range N).reverse ∧
    ((Counter.drain (Counter.new N)).1).Sorted (· > ·) ∧
    (Counter.drain (Counter.new N)).2 = ⟨0⟩ ∧
    (Counter.next (Counter.drain (Counter.new N)).2).1 = none ∧
    (Counter.next (Counter.new 0)).1 = none := by
  rw [Counter.drain_new]
  refine ⟨rfl, ?_, rfl, rfl, rfl⟩
  rw [List.Sorted, List.pairwise_reverse]
  exact List.pairwise_lt_range N

/-- C2: driving `Counter::new(N)` to exhaustion by repeated `next` calls
issues, over all calls combined, exactly the set `{0, 1, ..., N-1}`: the
issued trace has no duplicates, and a value is issued iff it lies in
`[0, N)`. -/
theorem counter_exhaustion_exact_set (N : Nat) :
    ((Counter.drain (Counter.new N)).1).Nodup ∧
    (∀ v : Nat, v ∈ (Counter.drain (Counter.new N)).1 ↔ v < N) := by
  rw [Counter.drain_new]
  constructor
  · simp [List.nodup_range]
  · intro v; simp [List.mem_range]

/-- C4: one `Counter::next` step from a reachable count `c ≤ N`: if the
observed count is `0` the call signals exhaustion; otherwise the CAS
advances the count from `c` to `c - 1` and the call returns `c - 1`,
which lies in `[0, N)`. -/
theorem counter_claim_step (N c : Nat) (h : c ≤ N) :
    (c = 0 → Counter.next ⟨c⟩ = (none, ⟨c⟩)) ∧
    (c ≠ 0 → Counter.next ⟨c⟩ = (some (c - 1), ⟨c - 1⟩) ∧ c - 1 < N) := by
  refine ⟨fun hc => by simp [Counter.next, hc], fun hc => ⟨by simp [Counter.next, hc], by omega⟩⟩

/-- Witness for `counter_claim_step` at `N = 5`, `c = 3`. -/
theorem counter_claim_step_witness :
    Counter.next ⟨3⟩ = (some 2, ⟨2⟩) ∧ 2 < 5 :=
  (counter_claim_step 5 3 (by decide)).2 (by decide)

/-- For a positive stride, chunk `i` starts strictly inside the buffer iff
`i` is below the chunk count `ceil(L / S)`. -/
theorem chunks_ceil_lt (L S i : Nat) (hS : 0 < S) :
    i < (L + S - 1) / S ↔ i * S < L := by
  rw [Nat.lt_iff_add_one_le, Nat.le_div_iff_mul_le hS, Nat.succ_mul]
  omega

/-- A partitioner whose cursor sits at the slice length is exhausted: the
drain issues nothing and leaves the state unchanged, for any fuel. -/
theorem Chunks.drainAux_exhausted (sl : List α) (S fuel : Nat) :
    Chunks.drainAux fuel ⟨sl, S, sl.length⟩ = ([], ⟨sl, S, sl.length⟩) := by
  cases fuel with
  | zero => rfl
  | succ fuel => simp [Chunks.drainAux, Chunks.next]

/-- One successful `Chunks.next` step from cursor `i * S` strictly inside
the buffer: the handle is chunk `i` with view `(sl.drop (i * S)).take S`,
and the cursor advances to `min (i * S + S) sl.length`. -/
theorem Chunks.next_at_chunk (sl : List α) (S i : Nat) (hS : 0 < S)
    (hcur : i * S < sl.length) :
    Chunks.next ⟨sl, S, i * S⟩ =
      .ok (some (i, (sl.drop (i * S)).take S),
           ⟨sl, S, min (i * S + S) sl.length⟩) := by
  have hview : (sl.drop (i * S)).take (min (i * S + S) sl.length - i * S)
      = (sl.drop (i * S)).take S := by
    rw [List.take_eq_take]
    simp only [List.length_drop]
    omega
  have hS0 : S ≠ 0 := by omega
  simp [Chunks.next, Nat.le_of_lt hcur, Nat.ne_of_lt hcur, hS0, hview,
    Nat.mul_div_cancel i hS]

/-- Closed form of a partitioner drain: starting at cursor `i * S` (with
enough fuel) the issued handles are exactly chunks
`i, i+1, ..., ceil(L/S) - 1`, chunk `j` carrying the view
`(sl.drop (j * S)).take S`, and the final cursor is the slice length. -/
theorem Chunks.drainAux_run (sl : List α) (S : Nat) (hS : 0 < S) :
    ∀ fuel i, i * S ≤ sl.length → sl.length + 1 - i * S ≤ fuel →
    Chunks.drainAux fuel ⟨sl, S, i * S⟩ =
      ((List.range' i ((sl.length + S - 1) / S - i)).map
          (fun j => (j, (sl.drop (j * S)).take S)),
        ⟨sl, S, sl.length⟩) := by
  intro fuel
  induction fuel with
  | zero => intro i h1 h2; omega
  | succ fuel ih =>
    intro i hle hfuel
    by_cases hi : i * S = sl.length
    · have hceil := chunks_ceil_lt sl.length S i hS
      have hn : (sl.length + S - 1) / S - i = 0 := by omega
      rw [hn, hi, Chunks.drainAux_exhausted]
      simp
    · have hcur : i * S < sl.length := by omega
      have hceil := chunks_ceil_lt sl.length S i hS
      have hmul : (i + 1) * S = i * S + S := by rw [Nat.succ_mul]
      simp only [Chunks.drainAux, Chunks.next_at_chunk sl S i hS hcur]
      by_cases hfit : i * S + S ≤ sl.length
      · have hmin : min (i * S + S) sl.length = (i + 1) * S := by omega
        rw [hmin, ih (i + 1) (by omega) (by omega)]
        have hceil1 := chunks_ceil_lt sl.length S (i + 1) hS
        have hrange : (sl.length + S - 1) / S - i
            = ((sl.length + S - 1) / S - (i + 1)) + 1 := by omega
        rw [hrange, List.range'_succ]
        simp
      · have hmin : min (i * S + S) sl.length = sl.length := by omega
        rw [hmin, Chunks.drainAux_exhausted]
        have hceil1 := chunks_ceil_lt sl.length S (i + 1) hS
        have hrange : (sl.length + S - 1) / S - i = 1 := by omega
        rw [hrange, List.range'_succ]
        simp

/-- Closed form of a full drain from a freshly constructed partitioner. -/
theorem chunks_drain_new (sl : List α) (S : Nat) (hS : 0 < S) :
    Chunks.drain (Chunks.new sl S) =
      ((List.range ((sl.length + S - 1) / S)).map
          (fun j => (j, (sl.drop (j * S)).take S)),
        ⟨sl, S, sl.length⟩) := by
  have h := Chunks.drainAux_run sl S hS (sl.length + 1) 0 (by omega) (by omega)
  simpa [Chunks.drain, Chunks.new, List.range_eq_range'] using h

/-- Concatenating the chunk views from chunk `i` on recovers the tail of
the buffer from position `i * S`. -/
theorem chunks_join (sl : List α) (S : Nat) (hS : 0 < S) :
    ∀ k i, (sl.length + S - 1) / S ≤ i + k →
    ((List.range' i k).map (fun j => (sl.drop (j * S)).take S)).flatten
      = sl.drop (i * S) := by
  intro k
  induction k with
  | zero =>
    intro i hk
    have hceil := chunks_ceil_lt sl.length S i hS
    have : sl.length ≤ i * S := by omega
    simp [List.drop_eq_nil_of_le this]
  | succ k ih =>
    intro i hk
    rw [List.range'_succ]
    simp only [List.map_cons, List.flatten_cons]
    rw [ih (i + 1) (by omega)]
    have hmul : (i + 1) * S = i * S + S := by rw [Nat.succ_mul]
    rw [hmul, ← List.drop_drop, List.take_append_drop]

/-- C1: driving `AtomicChunksMut::new(sl, S)` (stride `S ≥ 1`) to
exhaustion by repeated `next` calls yields handles whose indices are
exactly `0, ..., ceil(L/S) - 1`, each produced exactly once (the index
trace is literally `List.range` of the chunk count); the views are
consecutive pairwise-disjoint sub-slices whose concatenation is the whole
buffer, so their ranges cover `[0, L)` without overlap; every chunk except
possibly the last has exactly `S` elements; and the final cursor is `L`
(the exhausted state). -/
theorem chunks_exhaustion_partition (sl : List α) (S : Nat) (hS : 0 < S) :
    ((Chunks.drain (Chunks.new sl S)).1.map Prod.fst
        = List.range ((sl.length + S - 1) / S)) ∧
    (((Chunks.drain (Chunks.new sl S)).1.map Prod.snd).flatten = sl) ∧
    (∀ k : Nat, ∀ hk : k + 1 < (Chunks.drain (Chunks.new sl S)).1.length,
      (((Chunks.drain (Chunks.new sl S)).1.get
          ⟨k, Nat.lt_of_succ_lt hk⟩).snd).length = S) ∧
    (Chunks.drain (Chunks.new sl S)).2 = ⟨sl, S, sl.length⟩ := by
  rw [chunks_drain_new sl S hS]
  refine ⟨?_, ?_, ?_, rfl⟩
  · rw [List.map_map,
      show (Prod.fst ∘ fun j : Nat => (j, (sl.drop (j * S)).take S)) = id from rfl,
      List.map_id]
  · rw [List.map_map]
    have h := chunks_join sl S hS ((sl.length + S - 1) / S) 0 (by omega)
    rw [List.range_eq_range']
    simpa using h
  · intro k hk
    simp only [List.length_map, List.length_range] at hk
    have hceil := chunks_ceil_lt sl.length S (k + 1) hS
    have hmul : (k + 1) * S = k * S + S := by rw [Nat.succ_mul]
    simp only [List.get_eq_getElem, List.getElem_map, List.getElem_range]
    rw [List.length_take, List.length_drop]
    omega

/-- Witness for `chunks_exhaustion_partition` on the `test_ait` buffer
`0..=10` with stride `3`. -/
theorem chunks_exhaustion_partition_witness :
    ((Chunks.drain (Chunks.new [0, 1, 2, 3, 4, 5, 6, 7, 8, 9, 10] 3)).1.map Prod.fst
        = List.range 4) ∧
    (((Chunks.drain (Chunks.new [0, 1, 2, 3, 4, 5, 6, 7, 8, 9, 10] 3)).1.map
        Prod.snd).flatten = [0, 1, 2, 3, 4, 5, 6, 7, 8, 9, 10]) ∧
    (Chunks.drain (Chunks.new [0, 1, 2, 3, 4, 5, 6, 7, 8, 9, 10] 3)).2
        = ⟨[0, 1, 2, 3, 4, 5, 6, 7, 8, 9, 10], 3, 11⟩ :=
  ⟨(chunks_exhaustion_partition [0, 1, 2, 3, 4, 5, 6, 7, 8, 9, 10] 3 (by decide)).1,
   (chunks_exhaustion_partition [0, 1, 2, 3, 4, 5, 6, 7, 8, 9, 10] 3 (by decide)).2.1,
   (chunks_exhaustion_partition [0, 1, 2, 3, 4, 5, 6, 7, 8, 9, 10] 3 (by decide)).2.2.2⟩

/-- C3: one `Chunks.next` step from a partitioner state with stride
`S ≥ 1` and cursor `c ≤ L` (every reachable cursor satisfies this): if
`c = L` the call signals exhaustion and leaves the state unchanged;
otherwise it succeeds with the handle `(c / S, view)` where the view is
`sl[c .. min (c + S) L]`, and the cursor advances to `min (c + S) L`. -/
theorem chunks_claim_step (sl : List α) (S c : Nat) (hS : 0 < S)
    (h : c ≤ sl.length) :
    (c = sl.length → Chunks.next ⟨sl, S, c⟩ = .ok (none, ⟨sl, S, c⟩)) ∧
    (c ≠ sl.length →
      Chunks.next ⟨sl, S, c⟩ =
        .ok (some (c / S, (sl.drop c).take (min (c + S) sl.length - c)),
             ⟨sl, S, min (c + S) sl.length⟩)) := by
  have hS0 : S ≠ 0 := by omega
  exact ⟨fun hc => by simp [Chunks.next, hc],
         fun hc => by simp [Chunks.next, h, hc, hS0]⟩

/-- Witness for `chunks_claim_step`: buffer `[0, 1, 2, 3]`, stride `3`,
cursor `3`; the call returns chunk index `1` with view `[3]` and advances
the cursor to `4`. -/
theorem chunks_claim_step_witness :
    Chunks.next ⟨[0, 1, 2, 3], 3, 3⟩ =
      .ok (some (1, [3]), ⟨[0, 1, 2, 3], 3, 4⟩) :=
  (chunks_claim_step [0, 1, 2, 3] 3 3 (by decide) (by decide)).2 (by decide)

/-- C5 counterexample: `AtomicChunksMut::new` performs no validation, so
constructing a partitioner with stride `0` over the one-element buffer
`[0]` is NOT rejected: it returns a working state (cursor `0`), and the
failure only surfaces on the first `next` call, as a division-by-zero
panic — not at construction time as the claim states. -/
theorem chunks_zero_stride_counterexample :
    Chunks.new ([0] : List Nat) 0 = ⟨[0], 0, 0⟩ ∧
    (Chunks.new ([0] : List Nat) 0).next = .error .divByZero :=
  ⟨rfl, rfl⟩

/-- C5 amended: `AtomicChunksMut::new(buffer, 0)` is accepted — the
constructor stores the stride unchecked and returns a partitioner with
cursor `0`.  A zero stride is only caught at the first `next` call: on a
nonempty buffer that call panics with a division by zero (`current / step`
on line 114) rather than silently producing degenerate chunks, while on an
empty buffer every call just signals exhaustion. -/
theorem chunks_zero_stride_amended (sl : List α) :
    Chunks.new sl 0 = ⟨sl, 0, 0⟩ ∧
    (sl ≠ [] → (Chunks.new sl 0).next = .error .divByZero) ∧
    (sl = [] → (Chunks.new sl 0).next = .ok (none, Chunks.new sl 0)) := by
  refine ⟨rfl, fun h => ?_, fun h => ?_⟩
  · have hlen : 0 < sl.length := List.length_pos.mpr h
    simp [Chunks.new, Chunks.next, Nat.le_of_lt hlen, Nat.ne_of_lt hlen]
  · subst h
    simp [Chunks.new, Chunks.next]

/-- Witness for `chunks_zero_stride_amended` on the buffer `[7]`. -/
theorem chunks_zero_stride_amended_witness :
    (Chunks.new ([7] : List Nat) 0).next = .error .divByZero :=
  (chunks_zero_stride_amended ([7] : List Nat)).2.1 (by decide)

/-- Advance a partitioner by one call, keeping the state unchanged on a
panic (used to iterate calls when stating idempotent exhaustion). -/
def Chunks.after (c : Chunks α) : Chunks α :=
  match c.next with
  | .ok (_, c') => c'
  | .error _ => c

/-- C6: exhaustion is permanent and idempotent for both primitives.  A
counter whose count reached `0` answers every further call with the
exhausted signal and an unchanged state, so iterating calls any number of
times stays at count `0`; a partitioner whose cursor reached the slice
length likewise answers every further call with the exhausted signal and
an unchanged state, and iterating calls stays there.  No value or chunk
can ever be issued again. -/
theorem exhaustion_idempotent :
    (Counter.next ⟨0⟩ = (none, ⟨0⟩)) ∧
    (∀ k : Nat, (fun s : Counter => (Counter.next s).2)^[k] ⟨0⟩ = ⟨0⟩) ∧
    (∀ (sl : List Nat) (S : Nat),
      Chunks.next ⟨sl, S, sl.length⟩ = .ok (none, ⟨sl, S, sl.length⟩)) ∧
    (∀ (sl : List Nat) (S k : Nat),
      Chunks.after^[k] ⟨sl, S, sl.length⟩ = ⟨sl, S, sl.length⟩) := by
  refine ⟨rfl, fun k => ?_, fun sl S => ?_, fun sl S k => ?_⟩
  · exact Function.iterate_fixed rfl k
  · simp [Chunks.next]
  · exact Function.iterate_fixed (by simp [Chunks.after, Chunks.next]) k

/-- C7: the cursor is strictly monotonic and bounded.  Every successful
counter claim from a reachable count `c ≤ N` strictly decreases the count,
which stays in `[0, N]`; every successful partitioner claim from a
reachable cursor `c ≤ L` (stride `S ≥ 1`) strictly increases the cursor,
which stays in `[0, L]`. -/
theorem cursor_monotonic_bounded :
    (∀ (N c v : Nat) (s' : Counter), c ≤ N →
      Counter.next ⟨c⟩ = (some v, s') → s'.count < c ∧ s'.count ≤ N) ∧
    (∀ (sl : List Nat) (S c : Nat) (x : Nat × List Nat) (c' : Chunks Nat),
      0 < S → c ≤ sl.length → Chunks.next ⟨sl, S, c⟩ = .ok (some x, c') →
      c < c'.cursor ∧ c'.cursor ≤ sl.length) := by
  constructor
  · intro N c v s' hcN h
    cases s' with
    | mk cnt =>
      show cnt < c ∧ cnt ≤ N
      by_cases hc : c = 0
      · simp [Counter.next, hc] at h
      · simp [Counter.next, hc] at h
        omega
  · intro sl S c x c' hS hcL h
    cases c' with
    | mk sl' st' cur' =>
      show c < cur' ∧ cur' ≤ sl.length
      have hS0 : S ≠ 0 := by omega
      by_cases hc : c = sl.length
      · simp [Chunks.next, hc] at h
      · simp [Chunks.next, hcL, hc, hS0] at h
        omega

/-- Witness for `cursor_monotonic_bounded`: the counter step `2 → 1`
inside `[0, 2]` and the partitioner step `0 → 2` inside `[0, 3]`. -/
theorem cursor_monotonic_bounded_witness :
    ((Counter.mk 1).count < 2 ∧ (Counter.mk 1).count ≤ 2) ∧
    ((0 : Nat) < (Chunks.mk ([0, 1, 2] : List Nat) 2 2).cursor ∧
      (Chunks.mk ([0, 1, 2] : List Nat) 2 2).cursor ≤ 3) :=
  ⟨cursor_monotonic_bounded.1 2 2 1 ⟨1⟩ (by decide) (by decide),
   cursor_monotonic_bounded.2 [0, 1, 2] 2 0 (0, [0, 1]) ⟨[0, 1, 2], 2, 2⟩
     (by decide) (by decide) rfl⟩

/-- Partitioner states reachable from `a` by successful `next` calls
(calls that return the exhausted signal leave the state unchanged, so they
do not enlarge the reachable set). -/
inductive Chunks.ReachableFrom (a : Chunks α) : Chunks α → Prop
  | refl : Chunks.ReachableFrom a a
  | step (b b' : Chunks α) (p : Nat × List α) :
      Chunks.ReachableFrom a b → b.next = .ok (some p, b') →
      Chunks.ReachableFrom a b'

/-- Every state reachable from a freshly constructed partitioner keeps the
slice and step, and its cursor never exceeds the slice length (this is the
`assert!` invariant of line 108). -/
theorem chunks_reachable_inv (sl : List α) (S : Nat) (st : Chunks α)
    (h : Chunks.ReachableFrom (Chunks.new sl S) st) :
    st.slice = sl ∧ st.step = S ∧ st.cursor ≤ sl.length := by
  induction h with
  | refl => exact ⟨rfl, rfl, by simp [Chunks.new]⟩
  | step b b' p hr hnext ih =>
    obtain ⟨ih1, ih2, ih3⟩ := ih
    cases b' with
    | mk sl' st' cur' =>
      by_cases hc : b.cursor = b.slice.length
      · simp [Chunks.next, hc] at hnext
      · by_cases hz : b.step = 0
        · simp [Chunks.next, ih1 ▸ ih3, hc, hz] at hnext
        · simp only [Chunks.next, if_pos (ih1 ▸ ih3 : b.cursor ≤ b.slice.length),
            if_neg hc, if_neg hz, Except.ok.injEq, Prod.mk.injEq,
            Chunks.mk.injEq] at hnext
          obtain ⟨-, h1, h2, h3⟩ := hnext
          refine ⟨h1 ▸ ih1, h2 ▸ ih2, ?_⟩
          show cur' ≤ sl.length
          rw [← h3, ih1]
          omega

/-- C9: with a stride `S ≥ 1`, `next` never panics in any reachable
partitioner state: the internal assertion `cursor ≤ slice.length` holds,
the call returns a result (no assertion failure and no division by zero,
so the division `cursor / S` and the slicing `[cursor, min (cursor+S) L)`
are well-defined), and every successfully returned view is non-empty with
at most `S` elements. -/
theorem chunks_no_panic (sl : List α) (S : Nat) (st : Chunks α) (hS : 0 < S)
    (h : Chunks.ReachableFrom (Chunks.new sl S) st) :
    st.cursor ≤ st.slice.length ∧
    (∃ r, st.next = .ok r) ∧
    (∀ (i : Nat) (v : List α) (st' : Chunks α),
      st.next = .ok (some (i, v), st') → 1 ≤ v.length ∧ v.length ≤ S) := by
  obtain ⟨h1, h2, h3⟩ := chunks_reachable_inv sl S st h
  have hle : st.cursor ≤ st.slice.length := by rw [h1]; exact h3
  have hz : ¬ st.step = 0 := by rw [h2]; omega
  refine ⟨hle, ?_, ?_⟩
  · by_cases hc : st.cursor = st.slice.length
    · exact ⟨(none, st), by simp [Chunks.next, hc]⟩
    · exact ⟨(some (st.cursor / st.step,
          (st.slice.drop st.cursor).take
            (min (st.cursor + st.step) st.slice.length - st.cursor)),
        ⟨st.slice, st.step, min (st.cursor + st.step) st.slice.length⟩),
        by simp [Chunks.next, hle, hc, hz]⟩
  · intro i v st' heq
    by_cases hc : st.cursor = st.slice.length
    · simp [Chunks.next, hc] at heq
    · simp only [Chunks.next, if_pos hle, if_neg hc, if_neg hz, Except.ok.injEq,
        Prod.mk.injEq, Option.some.injEq] at heq
      obtain ⟨⟨-, hv⟩, -⟩ := heq
      rw [← hv, List.length_take, List.length_drop, h2]
      have hlt : st.cursor < st.slice.length := by omega
      omega

/-- Witness for `chunks_no_panic` at the freshly constructed partitioner
over `[5, 6]` with stride `1`, whose first call returns the view `[5]`. -/
theorem chunks_no_panic_witness :
    (Chunks.new ([5, 6] : List Nat) 1).cursor
        ≤ (Chunks.new ([5, 6] : List Nat) 1).slice.length ∧
    (1 ≤ ([5] : List Nat).length ∧ ([5] : List Nat).length ≤ 1) :=
  ⟨(chunks_no_panic [5, 6] 1 _ (by decide) Chunks.ReachableFrom.refl).1,
   (chunks_no_panic [5, 6] 1 _ (by decide) Chunks.ReachableFrom.refl).2.2 0 [5]
     ⟨[5, 6], 1, 1⟩ (by rfl)⟩

/-- Concurrent execution state of a countdown allocator: the shared cursor
plus the history of issued values, newest first, each tagged with the id
of the thread whose compare-and-exchange succeeded.  Loads and failed CAS
attempts leave the shared state unchanged and issue nothing, and a
successful CAS compares against the value it loaded, which at that moment
equals the cursor; so any real interleaving of `Counter::next` calls from
any number of threads projects onto a sequence of these events. -/
structure CounterExec where
  cursor : Nat
  history : List (Nat × Nat)
deriving DecidableEq, Repr

/-- One successful CAS of `Counter::next` (line 47) performed by thread
`t`: possible only while the cursor is nonzero; it moves the cursor down
by one and hands `cursor - 1` to `t`. -/
inductive CounterExec.Step : CounterExec → CounterExec → Prop
  | claim (t : Nat) (e : CounterExec) (h : e.cursor ≠ 0) :
      CounterExec.Step e ⟨e.cursor - 1, (t, e.cursor - 1) :: e.history⟩

/-- Executions of `Counter::new(N)` under any interleaving of threads. -/
inductive CounterExec.Reach (N : Nat) : CounterExec → Prop
  | init : CounterExec.Reach N ⟨N, []⟩
  | step (e e' : CounterExec) :
      CounterExec.Reach N e → CounterExec.Step e e' → CounterExec.Reach N e'

/-- In every reachable execution of `Counter::new(N)` the issued values
are exactly `cursor, cursor + 1, ..., N - 1`, newest first, and the
cursor stays at most `N`. -/
theorem counterExec_inv (N : Nat) (e : CounterExec)
    (h : CounterExec.Reach N e) :
    e.cursor ≤ N ∧
    e.history.map (fun p => p.2) = List.range' e.cursor (N - e.cursor) := by
  induction h with
  | init => simp
  | step a b hr hstep ih =>
    obtain ⟨ih1, ih2⟩ := ih
    cases hstep with
    | claim t hne =>
      constructor
      · show a.cursor - 1 ≤ N
        omega
      · show (a.cursor - 1) :: a.history.map (fun p => p.2)
            = List.range' (a.cursor - 1) (N - (a.cursor - 1))
        have hn : N - (a.cursor - 1) = (N - a.cursor) + 1 := by omega
        have hc : a.cursor - 1 + 1 = a.cursor := by omega
        rw [hn, List.range'_succ, hc, ih2]

/-- Concurrent execution state of a partitioner over a buffer of length
`L` with stride `S`: the shared cursor plus the history of issued chunk
ranges `[start, stop)`, newest first, tagged with the claiming thread's
id.  A successful call by thread `t` returns the handle
`(start / S, view over buffer[start..stop])`, so recording the range
records the returned view. -/
structure ChunksExec where
  cursor : Nat
  history : List (Nat × Nat × Nat)
deriving DecidableEq, Repr

/-- One successful CAS of `AtomicChunksMut::next` (line 113) performed by
thread `t`: possible only while the cursor has not reached `L`; it moves
the cursor up to `min (cursor + S) L` and hands that range to `t`. -/
inductive ChunksExec.Step (L S : Nat) : ChunksExec → ChunksExec → Prop
  | claim (t : Nat) (e : ChunksExec) (h : e.cursor ≠ L) :
      ChunksExec.Step L S e
        ⟨min (e.cursor + S) L, (t, e.cursor, min (e.cursor + S) L) :: e.history⟩

/-- Executions of `AtomicChunksMut::new(buffer, S)` over a buffer of
length `L`, under any interleaving of threads. -/
inductive ChunksExec.Reach (L S : Nat) : ChunksExec → Prop
  | init : ChunksExec.Reach L S ⟨0, []⟩
  | step (e e' : ChunksExec) :
      ChunksExec.Reach L S e → ChunksExec.Step L S e e' →
      ChunksExec.Reach L S e'

/-- In every reachable execution of a partitioner with stride `S ≥ 1` the
cursor stays at most `L`, every issued range is non-empty and closed below
the cursor, and the ranges are disjoint in a strong ordered sense: every
older range stops at or before where a newer one starts. -/
theorem chunksExec_inv (L S : Nat) (hS : 0 < S) (e : ChunksExec)
    (h : ChunksExec.Reach L S e) :
    e.cursor ≤ L ∧
    (∀ p ∈ e.history, p.2.1 < p.2.2 ∧ p.2.2 ≤ e.cursor) ∧
    e.history.Pairwise (fun a b => b.2.2 ≤ a.2.1) := by
  induction h with
  | init => simp
  | step a b hr hstep ih =>
    obtain ⟨ih1, ih2, ih3⟩ := ih
    cases hstep with
    | claim t hne =>
      have hlt : a.cursor < L := by omega
      refine ⟨?_, ?_, ?_⟩
      · show min (a.cursor + S) L ≤ L
        omega
      · intro p hp
        rcases List.mem_cons.mp hp with hp | hp
        · subst hp
          show a.cursor < min (a.cursor + S) L ∧
              min (a.cursor + S) L ≤ min (a.cursor + S) L
          omega
        · obtain ⟨hp1, hp2⟩ := ih2 p hp
          exact ⟨hp1, by show p.2.2 ≤ min (a.cursor + S) L; omega⟩
      · show List.Pairwise _ ((t, a.cursor, min (a.cursor + S) L) :: a.history)
        refine List.Pairwise.cons ?_ ih3
        intro p hp
        show p.2.2 ≤ a.cursor
        exact (ih2 p hp).2

/-- C8: under any interleaving of successful CAS events from any number of
threads (loads and failed CAS attempts change no shared state and block
nobody): no two counter claims — whether by the same thread or different
threads — ever receive the same value; no two partitioner claims ever
receive overlapping ranges, hence never overlapping mutable views; and
both primitives always make progress without blocking: from every
reachable non-exhausted state some thread's single CAS succeeds
immediately, while exhausted states answer every call at once with the
exhausted signal (lock-freedom). -/
theorem lockfree_concurrent_safety :
    (∀ (N : Nat) (e : CounterExec), CounterExec.Reach N e →
      (e.history.map (fun p => p.2)).Nodup) ∧
    (∀ (L S : Nat) (e : ChunksExec), 0 < S → ChunksExec.Reach L S e →
      e.history.Pairwise (fun a b => a.2.2 ≤ b.2.1 ∨ b.2.2 ≤ a.2.1)) ∧
    (∀ (N : Nat) (e : CounterExec), CounterExec.Reach N e → e.cursor ≠ 0 →
      ∃ e', CounterExec.Step e e') ∧
    (∀ (L S : Nat) (e : ChunksExec), ChunksExec.Reach L S e → e.cursor ≠ L →
      ∃ e', ChunksExec.Step L S e e') := by
  refine ⟨?_, ?_, ?_, ?_⟩
  · intro N e h
    rw [(counterExec_inv N e h).2]
    exact List.nodup_range' _ _
  · intro L S e hS h
    exact ((chunksExec_inv L S hS e h).2.2).imp (fun hab => Or.inr hab)
  · intro N e h hne
    exact ⟨_, CounterExec.Step.claim 0 e hne⟩
  · intro L S e h hne
    exact ⟨_, ChunksExec.Step.claim 0 e hne⟩

/-- Witness for `lockfree_concurrent_safety`: with `N = 1` the execution
that claims the single value `0` on thread `0`, and with `L = 3`, `S = 2`
the execution that claims the range `[0, 2)` on thread `0`. -/
theorem lockfree_concurrent_safety_witness :
    ((CounterExec.mk 0 [(0, 0)]).history.map (fun p => p.2)).Nodup ∧
    (ChunksExec.mk 2 [(0, 0, 2)]).history.Pairwise
      (fun a b => a.2.2 ≤ b.2.1 ∨ b.2.2 ≤ a.2.1) :=
  ⟨lockfree_concurrent_safety.1 1 ⟨0, [(0, 0)]⟩
      (CounterExec.Reach.step ⟨1, []⟩ _ CounterExec.Reach.init
        (CounterExec.Step.claim 0 ⟨1, []⟩ (by decide))),
   lockfree_concurrent_safety.2.1 3 2 ⟨2, [(0, 0, 2)]⟩ (by decide)
      (ChunksExec.Reach.step ⟨0, []⟩ _ ChunksExec.Reach.init
        (ChunksExec.Step.claim 0 ⟨0, []⟩ (by decide)))⟩
